import Mathlib

/-!
Verification of the jsonFileDB storage engine (src/index.js) against its
natural-language specification.  The JavaScript source is shallowly embedded:
JSON values become an inductive type, the filesystem becomes an association
list from paths to file contents, the mutable handle (the jsonFileDB class
instance) becomes an explicit record threaded through the operations, and
every operation returns its result together with the final handle and
filesystem state (JavaScript exceptions do not roll state back).
-/

namespace JsonFileDB

/-- JSON values as produced by JSON.parse and consumed by JSON.stringify.
Numbers are modelled as integers: every numeric value appearing in the
repository and the specification examples is an integer, and floating-point
formatting is outside the model. -/
inductive JVal : Type where
  | null : JVal
  | bool : Bool → JVal
  | num : Int → JVal
  | str : String → JVal
  | arr : List JVal → JVal
  | obj : List (String × JVal) → JVal

/-- A record as stored in a collection: a JavaScript object, i.e. an ordered
association list from field names to values (field order is property
insertion order, as in JavaScript). -/
abbrev JRec := List (String × JVal)

/-- Property read on an object: the value at the first (and, for objects
built by JavaScript, only) occurrence of the key; none models undefined. -/
def getField (r : JRec) (k : String) : Option JVal :=
  match r with
  | [] => none
  | (k', v) :: rest => if k' = k then some v else getField rest k

/-- Property write on an object, as in item[key] = v: overwrite in place if
the key is present (keeping its position), append otherwise. -/
def setField (r : JRec) (k : String) (v : JVal) : JRec :=
  match r with
  | [] => [(k, v)]
  | (k', w) :: rest => if k' = k then (k', v) :: rest else (k', w) :: setField rest k v

/-- JavaScript truthiness of a JSON value: false, 0, "" and null are falsy;
every array and object reference is truthy. -/
def truthy : JVal → Bool
  | .null => false
  | .bool b => b
  | .num n => n != 0
  | .str s => s != ""
  | .arr _ => true
  | .obj _ => true

/-- JavaScript strict equality (===) as it occurs in the matcher
item[key] === query[key].  On primitives it is value equality.  Arrays and
objects compare by reference; the record side always comes fresh out of
JSON.parse while the query side is caller-built, so the two are never the
same reference and the comparison yields false. -/
def strictEq : JVal → JVal → Bool
  | .null, .null => true
  | .bool a, .bool b => a == b
  | .num a, .num b => a == b
  | .str a, .str b => a == b
  | _, _ => false

/-- Property access item[key] on an arbitrary JSON value: a lookup on
objects, undefined (none) on primitives.  Index and length access on array
elements is outside the model: the data model stores only objects. -/
def getProp : JVal → String → Option JVal
  | .obj fields, k => getField fields k
  | _, _ => none

/-- The query matcher exactly as written in find, update and delete:
Object.keys(query).every(key => item[key] === query[key]).  A missing key
gives undefined, which is strictly equal to no JSON value. -/
def matchesQuery (item : JVal) (query : JRec) : Bool :=
  query.all fun kv =>
    match getProp item kv.1 with
    | some v => strictEq v kv.2
    | none => false

/-- A scalar (primitive) JSON value, the value type the specification
assigns to query fields. -/
def isScalar : JVal → Bool
  | .null => true
  | .bool _ => true
  | .num _ => true
  | .str _ => true
  | .arr _ => false
  | .obj _ => false

/-! ## Record codec

The source serializes with JSON.stringify (compact form, double-quoted
strings with standard escapes) and parses with JSON.parse.  Both are
modelled character by character.  Numbers carry integers only and strings
never hold lone surrogates, matching every value the repository and the
specification manipulate. -/

/-- The opening-brace character of a JSON object. -/
def lbrace : Char := Char.ofNat 123

/-- The closing-brace character of a JSON object. -/
def rbrace : Char := Char.ofNat 125

/-- Lower-case hexadecimal digit, as emitted by JSON.stringify in
unicode escapes. -/
def hexDigit (n : Nat) : Char :=
  if n < 10 then Char.ofNat (48 + n) else Char.ofNat (87 + n)

/-- How JSON.stringify renders one character inside a string literal:
quote and backslash get a backslash escape, the named control characters
use their short escapes, the remaining control characters use \u00xx, and
everything else is copied verbatim. -/
def escapeChar (c : Char) : List Char :=
  if c = '"' then ['\\', '"']
  else if c = '\\' then ['\\', '\\']
  else if c = Char.ofNat 8 then ['\\', 'b']
  else if c = Char.ofNat 12 then ['\\', 'f']
  else if c = '\n' then ['\\', 'n']
  else if c = Char.ofNat 13 then ['\\', 'r']
  else if c = '\t' then ['\\', 't']
  else if c.toNat < 32 then
    ['\\', 'u', '0', '0', hexDigit (c.toNat / 16), hexDigit (c.toNat % 16)]
  else [c]

/-- Escape every character of a string body. -/
def escList : List Char → List Char
  | [] => []
  | c :: rest => escapeChar c ++ escList rest

/-- A double-quoted JSON string literal. -/
def printString (s : String) : List Char :=
  '"' :: escList s.data ++ ['"']

/-- The characters of the null keyword. -/
def kwNull : List Char := ['n', 'u', 'l', 'l']

/-- The characters of the true keyword. -/
def kwTrue : List Char := ['t', 'r', 'u', 'e']

/-- The characters of the false keyword. -/
def kwFalse : List Char := ['f', 'a', 'l', 's', 'e']

/-- Decimal digit character. -/
def digitChar (n : Nat) : Char := Char.ofNat (48 + n)

/-- Decimal digits of a natural number, most significant first, no
leading zeros. -/
def natToDigits (n : Nat) : List Char :=
  if _h : n < 10 then [digitChar n]
  else natToDigits (n / 10) ++ [digitChar (n % 10)]
  decreasing_by exact Nat.div_lt_self (by omega) (by omega)

/-- JSON.stringify of an integer. -/
def printInt (n : Int) : List Char :=
  if n < 0 then '-' :: natToDigits (-n).toNat else natToDigits n.toNat

mutual

/-- JSON.stringify: compact rendering, no whitespace, object fields in
property order. -/
def printVal : JVal → List Char
  | .null => kwNull
  | .bool true => kwTrue
  | .bool false => kwFalse
  | .num n => printInt n
  | .str s => printString s
  | .arr xs => '[' :: printArr xs ++ [']']
  | .obj fs => lbrace :: printObj fs ++ [rbrace]

/-- Comma-separated rendering of array elements. -/
def printArr : List JVal → List Char
  | [] => []
  | [x] => printVal x
  | x :: y :: rest => printVal x ++ ',' :: printArr (y :: rest)

/-- Comma-separated rendering of object fields. -/
def printObj : List (String × JVal) → List Char
  | [] => []
  | [(k, v)] => printString k ++ ':' :: printVal v
  | (k, v) :: p :: rest => printString k ++ ':' :: printVal v ++ ',' :: printObj (p :: rest)

end

/-- JSON insignificant whitespace. -/
def isWs (c : Char) : Bool :=
  c = ' ' || c = '\t' || c = '\n' || c = Char.ofNat 13

/-- Skip insignificant whitespace. -/
def skipWs : List Char → List Char
  | [] => []
  | c :: rest => if isWs c then skipWs rest else c :: rest

/-- Value of a hexadecimal digit character, either case. -/
def hexVal (c : Char) : Option Nat :=
  if 48 ≤ c.toNat ∧ c.toNat ≤ 57 then some (c.toNat - 48)
  else if 97 ≤ c.toNat ∧ c.toNat ≤ 102 then some (c.toNat - 87)
  else if 65 ≤ c.toNat ∧ c.toNat ≤ 70 then some (c.toNat - 55)
  else none

/-- Decimal digit character test. -/
def isDigitCh (c : Char) : Bool :=
  48 ≤ c.toNat && c.toNat ≤ 57

/-- Decoding of a single-character escape in a JSON string literal. -/
def escDecode (e : Char) : Option Char :=
  if e = '"' then some '"'
  else if e = '\\' then some '\\'
  else if e = '/' then some '/'
  else if e = 'b' then some (Char.ofNat 8)
  else if e = 'f' then some (Char.ofNat 12)
  else if e = 'n' then some '\n'
  else if e = 'r' then some (Char.ofNat 13)
  else if e = 't' then some '\t'
  else none

/-- Consume an expected literal character sequence. -/
def expectChars : List Char → List Char → Option (List Char)
  | [], s => some s
  | c :: cs, d :: s => if d = c then expectChars cs s else none
  | _ :: _, [] => none

/-- Parse the body of a JSON string literal up to and including the
closing quote, returning the decoded characters and the remaining input.
Raw control characters are rejected, escapes are decoded; a \u escape
must denote a unicode scalar value (lone surrogates are outside the
model). -/
def parseStringBody : List Char → Option (List Char × List Char)
  | [] => none
  | c :: rest =>
    if c = '"' then some ([], rest)
    else if c = '\\' then
      match rest with
      | [] => none
      | e :: rest2 =>
        if e = 'u' then
          match rest2 with
          | h1 :: h2 :: h3 :: h4 :: rest3 =>
            match hexVal h1, hexVal h2, hexVal h3, hexVal h4 with
            | some a, some b, some d, some e4 =>
              let n := 4096 * a + 256 * b + 16 * d + e4
              if n < 55296 ∨ 57344 ≤ n then
                match parseStringBody rest3 with
                | some (cs, r) => some (Char.ofNat n :: cs, r)
                | none => none
              else none
            | _, _, _, _ => none
          | _ => none
        else
          match escDecode e with
          | some d =>
            match parseStringBody rest2 with
            | some (cs, r) => some (d :: cs, r)
            | none => none
          | none => none
    else if c.toNat < 32 then none
    else
      match parseStringBody rest with
      | some (cs, r) => some (c :: cs, r)
      | none => none

/-- Greedily consume decimal digits, extending the accumulator. -/
def parseDigitsAux : List Char → Nat → Nat × List Char
  | [], acc => (acc, [])
  | c :: rest, acc =>
    if isDigitCh c then parseDigitsAux rest (10 * acc + (c.toNat - 48))
    else (acc, c :: rest)

/-- Parse the integral part of a JSON number: a single 0, or a nonzero
digit followed by any digits (JSON forbids leading zeros). -/
def parseNat : List Char → Option (Nat × List Char)
  | [] => none
  | c :: rest =>
    if c = '0' then some (0, rest)
    else if isDigitCh c then some (parseDigitsAux (c :: rest) 0)
    else none

/-- Replay of JavaScript sequential property assignment: build an object
from parsed key/value pairs, a repeated key overwriting in place. -/
def mkObj (ps : JRec) : JRec :=
  ps.foldl (fun acc kv => setField acc kv.1 kv.2) []

mutual

/-- JSON.parse on a character list, fuel-bounded: parse one value and
return it with the remaining input. -/
def parseVal : Nat → List Char → Option (JVal × List Char)
  | 0, _ => none
  | f + 1, s =>
    match skipWs s with
    | [] => none
    | c :: rest =>
      if c = 'n' then
        match expectChars ['u', 'l', 'l'] rest with
        | some r => some (.null, r)
        | none => none
      else if c = 't' then
        match expectChars ['r', 'u', 'e'] rest with
        | some r => some (.bool true, r)
        | none => none
      else if c = 'f' then
        match expectChars ['a', 'l', 's', 'e'] rest with
        | some r => some (.bool false, r)
        | none => none
      else if c = '"' then
        match parseStringBody rest with
        | some (cs, r) => some (.str (String.mk cs), r)
        | none => none
      else if c = '-' then
        match parseNat rest with
        | some (m, r) => some (.num (-(m : Int)), r)
        | none => none
      else if isDigitCh c then
        match parseNat (c :: rest) with
        | some (m, r) => some (.num (m : Int), r)
        | none => none
      else if c = '[' then
        match skipWs rest with
        | [] => none
        | d :: r =>
          if d = ']' then some (.arr [], r)
          else
            match parseArrElems f (d :: r) with
            | some (vs, r2) => some (.arr vs, r2)
            | none => none
      else if c = lbrace then
        match skipWs rest with
        | [] => none
        | d :: r =>
          if d = rbrace then some (.obj [], r)
          else
            match parseObjElems f (d :: r) with
            | some (fs, r2) => some (.obj (mkObj fs), r2)
            | none => none
      else none

/-- Parse a nonempty comma-separated list of array elements followed by
the closing bracket. -/
def parseArrElems : Nat → List Char → Option (List JVal × List Char)
  | 0, _ => none
  | f + 1, s =>
    match parseVal f s with
    | some (v, r) =>
      match skipWs r with
      | [] => none
      | d :: r2 =>
        if d = ',' then
          match parseArrElems f r2 with
          | some (vs, r3) => some (v :: vs, r3)
          | none => none
        else if d = ']' then some ([v], r2)
        else none
    | none => none

/-- Parse a nonempty comma-separated list of object members followed by
the closing brace, returning the raw key/value pairs in source order. -/
def parseObjElems : Nat → List Char → Option (JRec × List Char)
  | 0, _ => none
  | f + 1, s =>
    match skipWs s with
    | [] => none
    | c :: r =>
      if c = '"' then
        match parseStringBody r with
        | some (kcs, r2) =>
          match skipWs r2 with
          | [] => none
          | d :: r3 =>
            if d = ':' then
              match parseVal f r3 with
              | some (v, r4) =>
                match skipWs r4 with
                | [] => none
                | d2 :: r5 =>
                  if d2 = ',' then
                    match parseObjElems f r5 with
                    | some (fs, r6) => some ((String.mk kcs, v) :: fs, r6)
                    | none => none
                  else if d2 = rbrace then some ([(String.mk kcs, v)], r5)
                  else none
              | none => none
            else none
        | none => none
      else none

end

/-- JSON.parse on a whole buffer: one value, optionally surrounded by
whitespace, nothing after it.  The fuel is ample for every input the
parser can accept. -/
def parseJson (s : String) : Option JVal :=
  match parseVal (2 * s.length + 2) s.data with
  | some (v, r) => if skipWs r = [] then some v else none
  | none => none

/-- JSON.stringify on a whole value. -/
def printJson (v : JVal) : String :=
  String.mk (printVal v)

/-! ## State layer

The jsonFileDB class instance becomes a Handle record, the filesystem an
association list from paths to file contents, and every method returns an
Outcome bundling its result (or thrown error) with the final handle and
filesystem — a thrown JavaScript exception does not roll back the field
and file mutations already performed.  Filesystem write failures are
modelled by the writeOk flag (a failed write leaves the file as it was);
read failures by absence of the path. -/

/-- The filesystem: file path to file contents. -/
abbrev Fs := List (String × String)

/-- Contents of the file at a path, none when the file does not exist. -/
def fsRead (fs : Fs) (p : String) : Option String :=
  match fs with
  | [] => none
  | (q, c) :: rest => if q = p then some c else fsRead rest p

/-- Replace or create the file at a path. -/
def fsWrite (fs : Fs) (p c : String) : Fs :=
  match fs with
  | [] => [(p, c)]
  | (q, d) :: rest => if q = p then (q, c) :: rest else (q, d) :: fsWrite rest p c

/-- The errors the embedded operations can raise. -/
inductive JsErr : Type where
  | noStorage : JsErr
  | ioError : JsErr
  | parseError : JsErr
  | typeError : JsErr
  deriving Repr, DecidableEq

/-- The mutable fields of a jsonFileDB instance. -/
structure Handle : Type where
  dbPath : String
  storage : Option String := none
  storagePath : Option String := none
  storageData : Option JVal := none
  lastInsertId : Option JVal := none

/-- Result of one method call: the returned value or thrown error, the
final handle and filesystem, and any error thrown inside an asynchronous
fs.writeFile callback — such an error escapes the method and never
reaches its caller. -/
structure Outcome (α : Type) : Type where
  result : Except JsErr α
  handle : Handle
  fs : Fs
  uncaught : Option JsErr := none

/-- setStorage from the source: rebind storage and storagePath, then
materialize the file with [] when it does not exist.  The field writes
precede the filesystem write, so they survive a write failure. -/
def setStorage (h : Handle) (fs : Fs) (storage : String) (writeOk : Bool) :
    Outcome Unit :=
  let path := h.dbPath ++ "/" ++ storage ++ ".json"
  let h' := { h with storage := some storage, storagePath := some path }
  match fsRead fs path with
  | some _ => { result := .ok (), handle := h', fs := fs }
  | none =>
    if writeOk then { result := .ok (), handle := h', fs := fsWrite fs path "[]" }
    else { result := .error .ioError, handle := h', fs := fs }

/-- get from the source: optionally rebind via setStorage, then read the
storage file synchronously, parse it, cache the parsed value in
storageData and return it.  A parse failure leaves storageData as it
was. -/
def get (h : Handle) (fs : Fs) (storage : String) (writeOk : Bool) :
    Outcome JVal :=
  let o := if storage = "" then { result := .ok (), handle := h, fs := fs }
           else setStorage h fs storage writeOk
  match o.result with
  | .error e => { result := .error e, handle := o.handle, fs := o.fs }
  | .ok _ =>
    match o.handle.storagePath with
    | none => { result := .error .ioError, handle := o.handle, fs := o.fs }
    | some path =>
      match fsRead o.fs path with
      | none => { result := .error .ioError, handle := o.handle, fs := o.fs }
      | some content =>
        match parseJson content with
        | none => { result := .error .parseError, handle := o.handle, fs := o.fs }
        | some v =>
          { result := .ok v, handle := { o.handle with storageData := some v }, fs := o.fs }

/-- The id expression of insert: insertData.id || generated.  The
JavaScript or-operator keeps a supplied id only when it is truthy; gen
stands for the concatenation of the two Math.random fragments. -/
def chooseId (insertData : JRec) (gen : String) : JVal :=
  match getField insertData "id" with
  | some v => if truthy v then v else .str gen
  | none => .str gen

/-- insert from the source.  gen is the string built from the two
Math.random fragments; it is consulted only when the record carries no
truthy id.  The source mutates insertData.id and this.lastInsertId before
awaiting this.get(), appends to the parsed array (which aliases
storageData) and writes synchronously. -/
def insert (h : Handle) (fs : Fs) (insertData : JRec) (gen : String) (writeOk : Bool) :
    Outcome JRec :=
  if h.storage = none then { result := .error .noStorage, handle := h, fs := fs }
  else
    let id := chooseId insertData gen
    let rec2 := setField insertData "id" id
    let h1 := { h with lastInsertId := some id }
    let o := get h1 fs "" writeOk
    match o.result with
    | .error e => { result := .error e, handle := o.handle, fs := o.fs }
    | .ok (.arr items) =>
      let newData : JVal := .arr (items ++ [.obj rec2])
      let h2 := { o.handle with storageData := some newData }
      match o.handle.storagePath with
      | some path =>
        if writeOk then
          { result := .ok rec2, handle := h2, fs := fsWrite o.fs path (printJson newData) }
        else { result := .error .ioError, handle := h2, fs := o.fs }
      | none => { result := .error .ioError, handle := h2, fs := o.fs }
    | .ok _ => { result := .error .typeError, handle := o.handle, fs := o.fs }

/-- find from the source: get, then filter by the query matcher. -/
def find (h : Handle) (fs : Fs) (query : JRec) (writeOk : Bool) :
    Outcome (List JVal) :=
  let o := get h fs "" writeOk
  match o.result with
  | .error e => { result := .error e, handle := o.handle, fs := o.fs }
  | .ok (.arr items) =>
    { result := .ok (items.filter fun item => matchesQuery item query),
      handle := o.handle, fs := o.fs }
  | .ok _ => { result := .error .typeError, handle := o.handle, fs := o.fs }

/-- The inner forEach of update: assign every key of updateData onto the
record, in order — item[key] = updateData[key]. -/
def mergeInto (fields updateData : JRec) : JRec :=
  updateData.foldl (fun acc kv => setField acc kv.1 kv.2) fields

/-- The update forEach body on one element: when the element matches the
query, merge updateData into it.  Property assignment on a matched
primitive is the silent no-op it is in non-strict JavaScript. -/
def updateItem (query updateData : JRec) (item : JVal) : JVal :=
  if matchesQuery item query then
    match item with
    | .obj fields => .obj (mergeInto fields updateData)
    | other => other
  else item

/-- update from the source: get, mutate every matching element in place
(the array aliases storageData), then issue a fire-and-forget
fs.writeFile and return the full array at once.  A write failure is
thrown inside the callback — recorded as uncaught, absent from result. -/
def update (h : Handle) (fs : Fs) (query updateData : JRec) (writeOk : Bool) :
    Outcome (List JVal) :=
  let o := get h fs "" writeOk
  match o.result with
  | .error e => { result := .error e, handle := o.handle, fs := o.fs }
  | .ok (.arr items) =>
    let newItems := items.map (updateItem query updateData)
    let h2 := { o.handle with storageData := some (.arr newItems) }
    match o.handle.storagePath with
    | some path =>
      if writeOk then
        { result := .ok newItems, handle := h2,
          fs := fsWrite o.fs path (printJson (.arr newItems)) }
      else
        { result := .ok newItems, handle := h2, fs := o.fs,
          uncaught := some .ioError }
    | none =>
      { result := .ok newItems, handle := h2, fs := o.fs,
        uncaught := some .ioError }
  | .ok _ => { result := .error .typeError, handle := o.handle, fs := o.fs }

/-- delete from the source: get, partition into deletedData (matching)
and filteredData (rest — a fresh array, so storageData keeps the full
set), fire-and-forget write of filteredData, return deletedData. -/
def delete (h : Handle) (fs : Fs) (query : JRec) (writeOk : Bool) :
    Outcome (List JVal) :=
  let o := get h fs "" writeOk
  match o.result with
  | .error e => { result := .error e, handle := o.handle, fs := o.fs }
  | .ok (.arr items) =>
    let deletedData := items.filter fun item => matchesQuery item query
    let filteredData := items.filter fun item => !(matchesQuery item query)
    match o.handle.storagePath with
    | some path =>
      if writeOk then
        { result := .ok deletedData, handle := o.handle,
          fs := fsWrite o.fs path (printJson (.arr filteredData)) }
      else
        { result := .ok deletedData, handle := o.handle, fs := o.fs,
          uncaught := some .ioError }
    | none =>
      { result := .ok deletedData, handle := o.handle, fs := o.fs,
        uncaught := some .ioError }
  | .ok _ => { result := .error .typeError, handle := o.handle, fs := o.fs }

/-! ## The two halves of insert around its await

insert is an async function; calling it runs everything up to and
including the awaited this.get() synchronously (id choice, lastInsertId
assignment, the full file read), then suspends.  The push, stringify and
writeFileSync run when the task resumes — possibly after other tasks ran.
Splitting insert at that boundary lets interleavings of concurrent
inserts be examined. -/

/-- The part of an insert that is still pending at the await point. -/
structure PendingInsert : Type where
  handle : Handle
  record : JRec
  snapshot : Except JsErr JVal

/-- Everything insert does before suspending at await this.get(). -/
def insertReadPhase (h : Handle) (fs : Fs) (insertData : JRec) (gen : String) :
    PendingInsert :=
  if h.storage = none then ⟨h, insertData, .error .noStorage⟩
  else
    let id := chooseId insertData gen
    let rec2 := setField insertData "id" id
    let h1 := { h with lastInsertId := some id }
    let o := get h1 fs "" true
    ⟨o.handle, rec2, o.result⟩

/-- Everything insert does after resuming: append to the snapshot it
read earlier and write that out over the current file state. -/
def insertWritePhase (p : PendingInsert) (fs : Fs) (writeOk : Bool) :
    Outcome JRec :=
  match p.snapshot with
  | .error e => { result := .error e, handle := p.handle, fs := fs }
  | .ok (.arr items) =>
    let newData : JVal := .arr (items ++ [.obj p.record])
    let h2 := { p.handle with storageData := some newData }
    match p.handle.storagePath with
    | some path =>
      if writeOk then
        { result := .ok p.record, handle := h2, fs := fsWrite fs path (printJson newData) }
      else { result := .error .ioError, handle := h2, fs := fs }
    | none => { result := .error .ioError, handle := h2, fs := fs }
  | .ok _ => { result := .error .typeError, handle := p.handle, fs := fs }

/-! ## Wellformedness and measures

Values that can come out of JSON.parse have no duplicate object keys;
the roundtrip law and the state-level theorems are stated for such
values.  The fuel measures bound the recursion depth the parser spends
on a printed value. -/

/-- No two fields of a record share a key (true of every JavaScript
object). -/
def nodupKeys (ps : JRec) : Bool :=
  decide ((ps.map Prod.fst).Nodup)

mutual

/-- Canonical JSON value: every object inside has no duplicate keys. -/
def wfV : JVal → Bool
  | .arr xs => wfA xs
  | .obj fs => nodupKeys fs && wfO fs
  | _ => true

/-- All elements canonical. -/
def wfA : List JVal → Bool
  | [] => true
  | x :: rest => wfV x && wfA rest

/-- All field values canonical. -/
def wfO : List (String × JVal) → Bool
  | [] => true
  | kv :: rest => wfV kv.2 && wfO rest

end

mutual

/-- Parser fuel sufficient for one printed value. -/
def fuelV : JVal → Nat
  | .arr xs => 1 + fuelA xs
  | .obj fs => 1 + fuelO fs
  | _ => 1

/-- Parser fuel sufficient for a printed element list. -/
def fuelA : List JVal → Nat
  | [] => 1
  | x :: rest => 1 + fuelV x + fuelA rest

/-- Parser fuel sufficient for a printed field list. -/
def fuelO : List (String × JVal) → Nat
  | [] => 1
  | kv :: rest => 1 + fuelV kv.2 + fuelO rest

end

/-- The codec encode of the specification, as the source performs it:
JSON.stringify of the full record array. -/
def encode (records : List JRec) : String :=
  printJson (.arr (records.map .obj))

/-- The codec decode of the specification, as the source performs it:
JSON.parse of the file contents. -/
def decode (s : String) : Option JVal :=
  parseJson s

/-! ## Character and digit lemmas -/

theorem char_ne_of_toNat {c d : Char} (h : c.toNat ≠ d.toNat) : c ≠ d :=
  fun e => h (e ▸ rfl)

theorem skipWs_cons_of_not_ws {c : Char} {t : List Char} (h : isWs c = false) :
    skipWs (c :: t) = c :: t := by
  simp [skipWs, h]

theorem isWs_eq_false_of_digit {c : Char} (h1 : 48 ≤ c.toNat) (h2 : c.toNat ≤ 57) :
    isWs c = false := by
  have hs : c ≠ ' ' := char_ne_of_toNat (by have : (' ' : Char).toNat = 32 := rfl; omega)
  have ht : c ≠ '\t' := char_ne_of_toNat (by have : ('\t' : Char).toNat = 9 := rfl; omega)
  have hn : c ≠ '\n' := char_ne_of_toNat (by have : ('\n' : Char).toNat = 10 := rfl; omega)
  have hr : c ≠ Char.ofNat 13 :=
    char_ne_of_toNat (by have : (Char.ofNat 13).toNat = 13 := rfl; omega)
  simp [isWs, hs, ht, hn, hr]

theorem expectChars_append (cs t : List Char) : expectChars cs (cs ++ t) = some t := by
  induction cs with
  | nil => rfl
  | cons c cs ih => simp [expectChars, ih]

theorem digitChar_toNat {m : Nat} (h : m < 10) : (digitChar m).toNat = 48 + m := by
  interval_cases m <;> rfl

theorem isDigitCh_digitChar {m : Nat} (h : m < 10) : isDigitCh (digitChar m) = true := by
  interval_cases m <;> decide

theorem digitChar_ne_zero {m : Nat} (h1 : 1 ≤ m) (h2 : m < 10) : digitChar m ≠ '0' := by
  interval_cases m <;> decide

theorem natToDigits_ne_nil (n : Nat) : natToDigits n ≠ [] := by
  rw [natToDigits]
  split <;> simp

theorem natToDigits_digits (n : Nat) :
    ∀ c ∈ natToDigits n, 48 ≤ c.toNat ∧ c.toNat ≤ 57 := by
  induction n using Nat.strong_induction_on with
  | _ n ih =>
    rw [natToDigits]
    split
    · rename_i h
      intro c hc
      simp only [List.mem_singleton] at hc
      subst hc
      rw [digitChar_toNat h]
      omega
    · rename_i h
      intro c hc
      rcases List.mem_append.mp hc with h1 | h1
      · exact ih (n / 10) (Nat.div_lt_self (by omega) (by omega)) c h1
      · simp only [List.mem_singleton] at h1
        subst h1
        rw [digitChar_toNat (Nat.mod_lt _ (by omega))]
        have := Nat.mod_lt n (y := 10) (by omega)
        omega

theorem natToDigits_head (n : Nat) (h : n ≠ 0) :
    ∃ c t, natToDigits n = c :: t ∧ c ≠ '0' ∧ 48 ≤ c.toNat ∧ c.toNat ≤ 57 := by
  induction n using Nat.strong_induction_on with
  | _ n ih =>
    rw [natToDigits]
    split
    · rename_i hlt
      refine ⟨digitChar n, [], rfl, digitChar_ne_zero (by omega) hlt, ?_, ?_⟩ <;>
        rw [digitChar_toNat hlt] <;> omega
    · rename_i hlt
      have hd : n / 10 ≠ 0 := by
        intro h0
        have := Nat.div_add_mod n 10
        have := Nat.mod_lt n (y := 10) (by omega)
        omega
      obtain ⟨c, t, heq, hc0, hc1, hc2⟩ := ih (n / 10) (Nat.div_lt_self (by omega) (by omega)) hd
      exact ⟨c, t ++ [digitChar (n % 10)], by rw [heq]; rfl, hc0, hc1, hc2⟩

theorem parseDigitsAux_spec :
    ∀ ds rest acc, (∀ c ∈ ds, isDigitCh c = true) →
      (∀ c t, rest = c :: t → isDigitCh c = false) →
      parseDigitsAux (ds ++ rest) acc =
        (ds.foldl (fun a c => 10 * a + (c.toNat - 48)) acc, rest) := by
  intro ds
  induction ds with
  | nil =>
    intro rest acc _ hr
    cases rest with
    | nil => rfl
    | cons c t => simp [parseDigitsAux, hr c t rfl]
  | cons d ds ih =>
    intro rest acc hd hr
    have hdd : isDigitCh d = true := hd d (by simp)
    simp only [List.cons_append, parseDigitsAux, hdd, if_pos]
    rw [show ds.append rest = ds ++ rest from rfl,
      ih rest _ (fun c hc => hd c (by simp [hc])) hr]
    rfl

theorem foldl_natToDigits (n : Nat) :
    ∀ acc, (natToDigits n).foldl (fun a c => 10 * a + (c.toNat - 48)) acc =
      acc * 10 ^ (natToDigits n).length + n := by
  induction n using Nat.strong_induction_on with
  | _ n ih =>
    intro acc
    rw [natToDigits]
    split
    · rename_i hlt
      simp only [List.foldl_cons, List.foldl_nil, List.length_singleton]
      rw [digitChar_toNat hlt]
      omega
    · rename_i hlt
      rw [List.foldl_append, ih (n / 10) (Nat.div_lt_self (by omega) (by omega)) acc]
      simp only [List.foldl_cons, List.foldl_nil, List.length_append,
        List.length_singleton]
      rw [digitChar_toNat (Nat.mod_lt _ (by omega))]
      have hmod := Nat.div_add_mod n 10
      have hm := Nat.mod_lt n (y := 10) (by omega)
      rw [pow_succ]
      set K := 10 ^ (natToDigits (n / 10)).length with hK
      ring_nf
      omega

theorem parseNat_natToDigits (n : Nat) (rest : List Char)
    (hr : ∀ c t, rest = c :: t → isDigitCh c = false) :
    parseNat (natToDigits n ++ rest) = some (n, rest) := by
  by_cases h0 : n = 0
  · subst h0
    have : natToDigits 0 = ['0'] := by rw [natToDigits]; simp; rfl
    rw [this]
    simp [parseNat]
  · obtain ⟨c, t, heq, hc0, hc1, hc2⟩ := natToDigits_head n h0
    have hdig : ∀ c' ∈ natToDigits n, isDigitCh c' = true := by
      intro c' hc'
      obtain ⟨ha, hb⟩ := natToDigits_digits n c' hc'
      simp [isDigitCh]
      omega
    have hd : isDigitCh c = true := hdig c (by rw [heq]; exact List.mem_cons_self c t)
    have hstep : parseNat (c :: (t ++ rest)) = some (parseDigitsAux (c :: (t ++ rest)) 0) := by
      simp [parseNat, hc0, hd]
    have hspec := parseDigitsAux_spec (natToDigits n) rest 0 hdig hr
    rw [heq, List.cons_append] at hspec
    rw [heq, List.cons_append, hstep, hspec, ← heq, foldl_natToDigits]
    simp

/-! ## String literal inversion -/

theorem hexVal_hexDigit {k : Nat} (h : k < 16) : hexVal (hexDigit k) = some k := by
  interval_cases k <;> decide

theorem parseStringBody_escList :
    ∀ cs rest, parseStringBody (escList cs ++ '"' :: rest) = some (cs, rest) := by
  intro cs
  induction cs with
  | nil => intro rest; rw [escList, List.nil_append, parseStringBody.eq_def]; simp
  | cons c cs ih =>
    intro rest
    have hshape : escList (c :: cs) ++ '"' :: rest =
        escapeChar c ++ (escList cs ++ '"' :: rest) := by
      simp [escList]
    rw [hshape]
    by_cases h1 : c = '"'
    · subst h1
      rw [show escapeChar '"' = ['\\', '"'] from rfl, List.cons_append,
        List.cons_append, List.nil_append, parseStringBody.eq_def]
      simp [escDecode, ih]
    by_cases h2 : c = '\\'
    · subst h2
      rw [show escapeChar '\\' = ['\\', '\\'] from rfl, List.cons_append,
        List.cons_append, List.nil_append, parseStringBody.eq_def]
      simp [escDecode, ih]
    by_cases h3 : c = Char.ofNat 8
    · subst h3
      rw [show escapeChar (Char.ofNat 8) = ['\\', 'b'] from rfl, List.cons_append,
        List.cons_append, List.nil_append, parseStringBody.eq_def]
      simp [escDecode, ih]
    by_cases h4 : c = Char.ofNat 12
    · subst h4
      rw [show escapeChar (Char.ofNat 12) = ['\\', 'f'] from rfl, List.cons_append,
        List.cons_append, List.nil_append, parseStringBody.eq_def]
      simp [escDecode, ih]
    by_cases h5 : c = '\n'
    · subst h5
      rw [show escapeChar '\n' = ['\\', 'n'] from rfl, List.cons_append,
        List.cons_append, List.nil_append, parseStringBody.eq_def]
      simp [escDecode, ih]
    by_cases h6 : c = Char.ofNat 13
    · subst h6
      rw [show escapeChar (Char.ofNat 13) = ['\\', 'r'] from rfl, List.cons_append,
        List.cons_append, List.nil_append, parseStringBody.eq_def]
      simp [escDecode, ih]
    by_cases h7 : c = '\t'
    · subst h7
      rw [show escapeChar '\t' = ['\\', 't'] from rfl, List.cons_append,
        List.cons_append, List.nil_append, parseStringBody.eq_def]
      simp [escDecode, ih]
    by_cases h8 : c.toNat < 32
    · have hv0 : hexVal '0' = some 0 := by decide
      have hvh : hexVal (hexDigit (c.toNat / 16)) = some (c.toNat / 16) :=
        hexVal_hexDigit (by omega)
      have hvl : hexVal (hexDigit (c.toNat % 16)) = some (c.toNat % 16) :=
        hexVal_hexDigit (Nat.mod_lt _ (by omega))
      have hchar : Char.ofNat (16 * (c.toNat / 16) + c.toNat % 16) = c := by
        rw [show 16 * (c.toNat / 16) + c.toNat % 16 = c.toNat from by omega,
          Char.ofNat_toNat]
      have hesc : escapeChar c =
          ['\\', 'u', '0', '0', hexDigit (c.toNat / 16), hexDigit (c.toNat % 16)] := by
        simp [escapeChar, h1, h2, h3, h4, h5, h6, h7, h8]
      rw [hesc]
      simp only [List.cons_append, List.nil_append]
      rw [parseStringBody.eq_def]
      simp [hv0, hvh, hvl, ih, hchar]
      omega
    · have hesc : escapeChar c = [c] := by
        simp [escapeChar, h1, h2, h3, h4, h5, h6, h7, h8]
      rw [hesc]
      simp only [List.cons_append, List.nil_append]
      rw [parseStringBody.eq_def]
      simp [h1, h2, h8, ih]

/-- The first character of a printed value: never whitespace, never a
closing bracket, never a comma. -/
theorem printVal_head (v : JVal) :
    ∃ c t, printVal v = c :: t ∧ isWs c = false ∧ c ≠ ']' ∧ c ≠ ',' := by
  cases v with
  | null =>
    exact ⟨'n', ['u', 'l', 'l'], by simp [printVal, kwNull], by decide, by decide, by decide⟩
  | bool b =>
    cases b with
    | true =>
      exact ⟨'t', ['r', 'u', 'e'], by simp [printVal, kwTrue], by decide, by decide, by decide⟩
    | false =>
      exact ⟨'f', ['a', 'l', 's', 'e'], by simp [printVal, kwFalse],
        by decide, by decide, by decide⟩
  | num n =>
    by_cases hneg : n < 0
    · refine ⟨'-', natToDigits (-n).toNat, ?_, by decide, by decide, by decide⟩
      simp [printVal, printInt, hneg]
    · obtain ⟨c, t, heq⟩ := List.exists_cons_of_ne_nil (natToDigits_ne_nil n.toNat)
      have hmem : c ∈ natToDigits n.toNat := by rw [heq]; exact List.mem_cons_self c t
      obtain ⟨ha, hb⟩ := natToDigits_digits n.toNat c hmem
      refine ⟨c, t, ?_, isWs_eq_false_of_digit ha hb,
        char_ne_of_toNat (by have : (']' : Char).toNat = 93 := rfl; omega),
        char_ne_of_toNat (by have : (',' : Char).toNat = 44 := rfl; omega)⟩
      simp [printVal, printInt, hneg, heq]
  | str s =>
    exact ⟨'"', escList s.data ++ ['"'], by simp [printVal, printString],
      by decide, by decide, by decide⟩
  | arr xs =>
    exact ⟨'[', printArr xs ++ [']'], by simp [printVal], by decide, by decide, by decide⟩
  | obj fs =>
    exact ⟨lbrace, printObj fs ++ [rbrace], by simp [printVal],
      by decide, by decide, by decide⟩

/-! ## Object reconstruction and head shapes -/

theorem fuelV_pos (v : JVal) : 1 ≤ fuelV v := by
  cases v <;> simp [fuelV]

theorem fuelA_pos (xs : List JVal) : 1 ≤ fuelA xs := by
  cases xs <;> simp [fuelA] <;> omega

theorem fuelO_pos (fs : List (String × JVal)) : 1 ≤ fuelO fs := by
  cases fs <;> simp [fuelO] <;> omega

theorem setField_eq_append {ps : JRec} {k : String} {v : JVal}
    (h : k ∉ ps.map Prod.fst) : setField ps k v = ps ++ [(k, v)] := by
  induction ps with
  | nil => rfl
  | cons kv t ih =>
    obtain ⟨k', w⟩ := kv
    simp only [List.map_cons, List.mem_cons] at h
    push_neg at h
    have hne : ¬(k' = k) := fun e => h.1 e.symm
    simp [setField, hne, ih h.2]

theorem foldl_setField_eq_append :
    ∀ ps acc : JRec, (((acc ++ ps).map Prod.fst).Nodup) →
      List.foldl (fun a kv => setField a kv.1 kv.2) acc ps = acc ++ ps := by
  intro ps
  induction ps with
  | nil => intro acc _; simp
  | cons kv ps ih =>
    intro acc h
    obtain ⟨k, v⟩ := kv
    have hmem : k ∉ acc.map Prod.fst := by
      rw [List.map_append] at h
      have := (List.nodup_append.mp h).2.2
      intro hk
      exact this hk (by simp)
    have hstep : setField acc k v = acc ++ [(k, v)] := setField_eq_append hmem
    simp only [List.foldl_cons, hstep]
    rw [ih (acc ++ [(k, v)]) (by rwa [← List.append_cons])]
    rw [← List.append_cons]

theorem mkObj_eq_self {ps : JRec} (h : nodupKeys ps = true) : mkObj ps = ps := by
  have hn : (ps.map Prod.fst).Nodup := by
    simpa [nodupKeys] using h
  simpa using foldl_setField_eq_append ps [] (by simpa)

/-- The first character of a printed nonempty element list: the head of
its first element. -/
theorem printArr_head (y : JVal) (ys : List JVal) :
    ∃ c t, printArr (y :: ys) = c :: t ∧ isWs c = false ∧ c ≠ ']' := by
  obtain ⟨c, t, hpv, hws, hbr, _⟩ := printVal_head y
  cases ys with
  | nil => exact ⟨c, t, by simp [printArr, hpv], hws, hbr⟩
  | cons z zs =>
    exact ⟨c, t ++ ',' :: printArr (z :: zs), by simp [printArr, hpv], hws, hbr⟩

/-- The first character of a printed nonempty field list: the opening
quote of its first key. -/
theorem printObj_head (kv : String × JVal) (ps : List (String × JVal)) :
    ∃ t, printObj (kv :: ps) = '"' :: t := by
  obtain ⟨k, v⟩ := kv
  cases ps with
  | nil =>
    exact ⟨escList k.data ++ ['"'] ++ ':' :: printVal v, by simp [printObj, printString]⟩
  | cons p ps2 =>
    exact ⟨escList k.data ++ ['"'] ++ ':' :: printVal v ++ ',' :: printObj (p :: ps2),
      by simp [printObj, printString]⟩

/-! ## Parser inversion

A printed canonical value parses back to itself, by induction on the
parser fuel.  The boundary hypothesis says the remaining input does not
begin with a digit, so a printed number is not extended. -/

theorem parse_print_aux : ∀ f : Nat,
    (∀ v rest, fuelV v ≤ f → wfV v = true →
      (∀ c t, rest = c :: t → isDigitCh c = false) →
      parseVal f (printVal v ++ rest) = some (v, rest))
  ∧ (∀ xs rest, xs ≠ [] → fuelA xs ≤ f → wfA xs = true →
      parseArrElems f (printArr xs ++ ']' :: rest) = some (xs, rest))
  ∧ (∀ fs rest, fs ≠ [] → fuelO fs ≤ f → wfO fs = true →
      parseObjElems f (printObj fs ++ rbrace :: rest) = some (fs, rest)) := by
  intro f
  induction f with
  | zero =>
    refine ⟨?_, ?_, ?_⟩
    · intro v rest hf _ _; exact absurd hf (by have := fuelV_pos v; omega)
    · intro xs rest _ hf _; exact absurd hf (by have := fuelA_pos xs; omega)
    · intro fs rest _ hf _; exact absurd hf (by have := fuelO_pos fs; omega)
  | succ f ih =>
    obtain ⟨ihV, ihA, ihO⟩ := ih
    refine ⟨?_, ?_, ?_⟩
    · intro v rest hf hwf hbd
      cases v with
      | null =>
        rw [parseVal.eq_def]
        simp [printVal, kwNull, skipWs, isWs, expectChars]
      | bool b =>
        cases b <;>
          (rw [parseVal.eq_def]
           simp [printVal, kwTrue, kwFalse, skipWs, isWs, expectChars])
      | num n =>
        by_cases hneg : n < 0
        · have hpr : printVal (.num n) = '-' :: natToDigits (-n).toNat := by
            simp [printVal, printInt, hneg]
          have hpn := parseNat_natToDigits (-n).toNat rest hbd
          rw [hpr, List.cons_append, parseVal.eq_def]
          simp [skipWs_cons_of_not_ws (by decide : isWs '-' = false), hpn]
          omega
        · have h0 : (0 : Int) ≤ n := by omega
          have hpr : printVal (.num n) = natToDigits n.toNat := by
            simp [printVal, printInt, hneg]
          obtain ⟨c, t, heq⟩ := List.exists_cons_of_ne_nil (natToDigits_ne_nil n.toNat)
          obtain ⟨ha, hb2⟩ :=
            natToDigits_digits n.toNat c (by rw [heq]; exact List.mem_cons_self c t)
          have hdig : isDigitCh c = true := by simp [isDigitCh]; omega
          have hn1 : c ≠ 'n' :=
            char_ne_of_toNat (by have : ('n' : Char).toNat = 110 := rfl; omega)
          have hn2 : c ≠ 't' :=
            char_ne_of_toNat (by have : ('t' : Char).toNat = 116 := rfl; omega)
          have hn3 : c ≠ 'f' :=
            char_ne_of_toNat (by have : ('f' : Char).toNat = 102 := rfl; omega)
          have hn4 : c ≠ '"' :=
            char_ne_of_toNat (by have : ('"' : Char).toNat = 34 := rfl; omega)
          have hn5 : c ≠ '-' :=
            char_ne_of_toNat (by have : ('-' : Char).toNat = 45 := rfl; omega)
          have hpn := parseNat_natToDigits n.toNat rest hbd
          rw [heq, List.cons_append] at hpn
          rw [hpr, heq, List.cons_append, parseVal.eq_def]
          simp [skipWs_cons_of_not_ws (isWs_eq_false_of_digit ha hb2), hn1, hn2, hn3,
            hn4, hn5, hdig, hpn, Int.toNat_of_nonneg h0]
      | str s =>
        have hpr : printVal (.str s) ++ rest = '"' :: (escList s.data ++ '"' :: rest) := by
          simp [printVal, printString]
        rw [hpr, parseVal.eq_def]
        simp [skipWs_cons_of_not_ws (by decide : isWs '"' = false), parseStringBody_escList]
      | arr xs =>
        cases xs with
        | nil =>
          have hpr : printVal (.arr []) ++ rest = '[' :: ']' :: rest := by
            simp [printVal, printArr]
          rw [hpr, parseVal.eq_def]
          simp [skipWs_cons_of_not_ws (by decide : isWs '[' = false),
            (by decide : isDigitCh '[' = false),
            skipWs_cons_of_not_ws (by decide : isWs ']' = false)]
        | cons y ys =>
          have hfa : fuelA (y :: ys) ≤ f := by simp [fuelV] at hf; omega
          have hwa : wfA (y :: ys) = true := by simpa [wfV] using hwf
          obtain ⟨c, t, hpa, hws, hbr⟩ := printArr_head y ys
          have hpr : printVal (.arr (y :: ys)) ++ rest =
              '[' :: (c :: (t ++ ']' :: rest)) := by
            simp [printVal, hpa]
          have harr := ihA (y :: ys) rest (by simp) hfa hwa
          rw [hpa, List.cons_append] at harr
          rw [hpr, parseVal.eq_def]
          simp [skipWs_cons_of_not_ws (by decide : isWs '[' = false),
            (by decide : isDigitCh '[' = false),
            skipWs_cons_of_not_ws hws, hbr, harr]
      | obj fs =>
        cases fs with
        | nil =>
          have hpr : printVal (.obj []) ++ rest = lbrace :: rbrace :: rest := by
            simp [printVal, printObj]
          rw [hpr, parseVal.eq_def]
          simp [skipWs_cons_of_not_ws (by decide : isWs lbrace = false),
            (by decide : lbrace ≠ 'n'), (by decide : lbrace ≠ 't'),
            (by decide : lbrace ≠ 'f'), (by decide : lbrace ≠ '"'),
            (by decide : lbrace ≠ '-'), (by decide : isDigitCh lbrace = false),
            (by decide : lbrace ≠ '['), 
            skipWs_cons_of_not_ws (by decide : isWs rbrace = false)]
        | cons kv ps =>
          have hfo : fuelO (kv :: ps) ≤ f := by simp [fuelV] at hf; omega
          have hwsplit : nodupKeys (kv :: ps) = true ∧ wfO (kv :: ps) = true := by
            have := hwf
            simp [wfV] at this
            exact this
          obtain ⟨t, hpo⟩ := printObj_head kv ps
          have hpr : printVal (.obj (kv :: ps)) ++ rest =
              lbrace :: ('"' :: (t ++ rbrace :: rest)) := by
            simp [printVal, hpo]
          have hobj := ihO (kv :: ps) rest (by simp) hfo hwsplit.2
          rw [hpo, List.cons_append] at hobj
          rw [hpr, parseVal.eq_def]
          simp [skipWs_cons_of_not_ws (by decide : isWs lbrace = false),
            (by decide : lbrace ≠ 'n'), (by decide : lbrace ≠ 't'),
            (by decide : lbrace ≠ 'f'), (by decide : lbrace ≠ '"'),
            (by decide : lbrace ≠ '-'), (by decide : isDigitCh lbrace = false),
            (by decide : lbrace ≠ '['), 
            (by decide : ('"' : Char) ≠ rbrace),
            skipWs_cons_of_not_ws (by decide : isWs '"' = false), hobj,
            mkObj_eq_self hwsplit.1]
    · intro xs rest hne hfa hwa
      cases xs with
      | nil => exact absurd rfl hne
      | cons y ys =>
        cases ys with
        | nil =>
          have hfv : fuelV y ≤ f := by simp [fuelA] at hfa; omega
          have hwv : wfV y = true := by
            simp [wfA] at hwa; exact hwa
          have hv := ihV y (']' :: rest) hfv hwv
            (by intro c t h; injection h with h1 _; rw [← h1]; decide)
          have hpr : printArr [y] ++ ']' :: rest = printVal y ++ ']' :: rest := by
            simp [printArr]
          rw [hpr, parseArrElems.eq_def]
          simp [hv, skipWs_cons_of_not_ws (by decide : isWs ']' = false)]
        | cons z zs =>
          have hfv : fuelV y ≤ f := by simp [fuelA] at hfa; omega
          have hfa2 : fuelA (z :: zs) ≤ f := by simp [fuelA] at hfa ⊢; omega
          have hwv : wfV y = true := by simp [wfA] at hwa; exact hwa.1
          have hwa2 : wfA (z :: zs) = true := by
            simp [wfA] at hwa ⊢; exact ⟨hwa.2.1, hwa.2.2⟩
          have hv := ihV y (',' :: (printArr (z :: zs) ++ ']' :: rest)) hfv hwv
            (by intro c t h; injection h with h1 _; rw [← h1]; decide)
          have ha2 := ihA (z :: zs) rest (by simp) hfa2 hwa2
          have hpr : printArr (y :: z :: zs) ++ ']' :: rest =
              printVal y ++ (',' :: (printArr (z :: zs) ++ ']' :: rest)) := by
            simp [printArr]
          rw [hpr, parseArrElems.eq_def]
          simp [hv, skipWs_cons_of_not_ws (by decide : isWs ',' = false), ha2]
    · intro fs rest hne hfo hwo
      cases fs with
      | nil => exact absurd rfl hne
      | cons kv ps =>
        obtain ⟨k, v⟩ := kv
        cases ps with
        | nil =>
          have hfv : fuelV v ≤ f := by simp [fuelO] at hfo; omega
          have hwv : wfV v = true := by simp [wfO] at hwo; exact hwo
          have hv := ihV v (rbrace :: rest) hfv hwv
            (by intro c t h; injection h with h1 _; rw [← h1]; decide)
          have hpr : printObj [(k, v)] ++ rbrace :: rest =
              '"' :: (escList k.data ++ '"' :: (':' :: (printVal v ++ rbrace :: rest))) := by
            simp [printObj, printString]
          rw [hpr, parseObjElems.eq_def]
          simp [skipWs_cons_of_not_ws (by decide : isWs '"' = false),
            parseStringBody_escList,
            skipWs_cons_of_not_ws (by decide : isWs ':' = false), hv,
            (by decide : rbrace ≠ ','),
            skipWs_cons_of_not_ws (by decide : isWs rbrace = false)]
        | cons p ps2 =>
          have hfv : fuelV v ≤ f := by simp [fuelO] at hfo; omega
          have hfo2 : fuelO (p :: ps2) ≤ f := by simp [fuelO] at hfo ⊢; omega
          have hwv : wfV v = true := by simp [wfO] at hwo; exact hwo.1
          have hwo2 : wfO (p :: ps2) = true := by
            simp [wfO] at hwo ⊢; exact ⟨hwo.2.1, hwo.2.2⟩
          have hv := ihV v (',' :: (printObj (p :: ps2) ++ rbrace :: rest)) hfv hwv
            (by intro c t h; injection h with h1 _; rw [← h1]; decide)
          have ho2 := ihO (p :: ps2) rest (by simp) hfo2 hwo2
          have hpr : printObj ((k, v) :: p :: ps2) ++ rbrace :: rest =
              '"' :: (escList k.data ++ '"' ::
                (':' :: (printVal v ++ (',' :: (printObj (p :: ps2) ++ rbrace :: rest))))) := by
            simp [printObj, printString]
          rw [hpr, parseObjElems.eq_def]
          simp [skipWs_cons_of_not_ws (by decide : isWs '"' = false),
            parseStringBody_escList,
            skipWs_cons_of_not_ws (by decide : isWs ':' = false), hv,
            skipWs_cons_of_not_ws (by decide : isWs ',' = false), ho2]

mutual

theorem fuelV_le : (v : JVal) → fuelV v ≤ 2 * (printVal v).length
  | .null => by simp [fuelV, printVal, kwNull]
  | .bool true => by simp [fuelV, printVal, kwTrue]
  | .bool false => by simp [fuelV, printVal, kwFalse]
  | .num n => by
    simp only [fuelV, printVal]
    unfold printInt
    split
    · have := List.length_pos.mpr (natToDigits_ne_nil (-n).toNat)
      simp
      omega
    · have := List.length_pos.mpr (natToDigits_ne_nil n.toNat)
      omega
  | .str s => by
    simp [fuelV, printVal, printString]
    omega
  | .arr xs => by
    have h := fuelA_le xs
    simp [fuelV, printVal]
    omega
  | .obj fs => by
    have h := fuelO_le fs
    simp [fuelV, printVal]
    omega

theorem fuelA_le : (xs : List JVal) → fuelA xs ≤ 2 * (printArr xs).length + 2
  | [] => by simp [fuelA, printArr]
  | [x] => by
    have h := fuelV_le x
    simp [fuelA, printArr]
    omega
  | x :: y :: r => by
    have h1 := fuelV_le x
    have h2 := fuelA_le (y :: r)
    simp [fuelA, printArr] at *
    omega

theorem fuelO_le : (fs : List (String × JVal)) → fuelO fs ≤ 2 * (printObj fs).length + 2
  | [] => by simp [fuelO, printObj]
  | [(k, v)] => by
    have h := fuelV_le v
    simp [fuelO, printObj]
    omega
  | (k, v) :: p :: r => by
    have h1 := fuelV_le v
    have h2 := fuelO_le (p :: r)
    simp [fuelO, printObj] at *
    omega

end

/-- The codec roundtrip at the value level: printing a canonical value
and parsing the result gives the value back. -/
theorem parseJson_printJson {v : JVal} (h : wfV v = true) :
    parseJson (printJson v) = some v := by
  unfold parseJson printJson
  have hfuel : fuelV v ≤ 2 * (String.mk (printVal v)).length + 2 := by
    have := fuelV_le v
    have hl : (String.mk (printVal v)).length = (printVal v).length := rfl
    omega
  have hp := (parse_print_aux (2 * (String.mk (printVal v)).length + 2)).1 v [] hfuel h
    (by intro c t h'; cases h')
  rw [List.append_nil] at hp
  have hdata : (String.mk (printVal v)).data = printVal v := rfl
  rw [hdata, hp]
  simp [skipWs]

/-- The codec roundtrip at the record-set level, as the specification
states it. -/
theorem decode_encode (rs : List JRec) (h : wfV (.arr (rs.map .obj)) = true) :
    decode (encode rs) = some (.arr (rs.map .obj)) :=
  parseJson_printJson h

/-! ## Filesystem, field and matcher lemmas -/

theorem fsRead_fsWrite_same (fs : Fs) (p c : String) :
    fsRead (fsWrite fs p c) p = some c := by
  induction fs with
  | nil => simp [fsWrite, fsRead]
  | cons e rest ih =>
    obtain ⟨q, d⟩ := e
    by_cases h : q = p
    · subst h; simp [fsWrite, fsRead]
    · simp [fsWrite, fsRead, h, ih]

theorem getField_setField_same (r : JRec) (k : String) (v : JVal) :
    getField (setField r k v) k = some v := by
  induction r with
  | nil => simp [setField, getField]
  | cons kv rest ih =>
    obtain ⟨k', w⟩ := kv
    by_cases h : k' = k
    · subst h; simp [setField, getField]
    · simp [setField, getField, h, ih]

theorem getField_setField_other (r : JRec) {k k' : String} (v : JVal) (h : k' ≠ k) :
    getField (setField r k v) k' = getField r k' := by
  induction r with
  | nil => simp [setField, getField, Ne.symm h]
  | cons kv rest ih =>
    obtain ⟨k2, w⟩ := kv
    by_cases h2 : k2 = k
    · subst h2; simp [setField, getField, Ne.symm h]
    · simp [setField, getField, h2, ih]

theorem getField_eq_none (r : JRec) (k : String) (h : k ∉ r.map Prod.fst) :
    getField r k = none := by
  induction r with
  | nil => rfl
  | cons kv rest ih =>
    obtain ⟨k', w⟩ := kv
    simp only [List.map_cons, List.mem_cons] at h
    push_neg at h
    have hne : ¬(k' = k) := fun e => h.1 e.symm
    simp [getField, hne, ih h.2]

/-- What a merged record holds at each key: the patch value where the
patch has the key, the original value elsewhere. -/
theorem mergeInto_getField (p : JRec) :
    ∀ (r : JRec) (k : String), (p.map Prod.fst).Nodup →
    getField (mergeInto r p) k =
      match getField p k with
      | some v => some v
      | none => getField r k := by
  induction p with
  | nil => intro r k _; simp [mergeInto, getField]
  | cons kv p' ih =>
    intro r k hnd
    obtain ⟨k1, v1⟩ := kv
    simp only [List.map_cons, List.nodup_cons] at hnd
    have hme : mergeInto r ((k1, v1) :: p') = mergeInto (setField r k1 v1) p' := by
      simp [mergeInto]
    rw [hme, ih _ k hnd.2]
    by_cases hk : k1 = k
    · subst hk
      have hnone : getField p' k1 = none := getField_eq_none _ _ hnd.1
      simp [getField, hnone, getField_setField_same]
    · cases hgp : getField p' k with
      | none => simp [getField, hk, hgp, getField_setField_other r v1 (fun e => hk e.symm)]
      | some v => simp [getField, hk, hgp]

theorem mem_map_fst_setField {rest : JRec} {k x : String} {v : JVal} :
    x ∈ (setField rest k v).map Prod.fst ↔ x ∈ rest.map Prod.fst ∨ x = k := by
  induction rest with
  | nil => simp [setField]
  | cons kv t ih =>
    obtain ⟨k', w⟩ := kv
    by_cases he : k' = k
    · subst he
      simp [setField]
      tauto
    · simp [setField, he, ih]
      tauto

theorem nodup_setField {r : JRec} {k : String} {v : JVal}
    (h : (r.map Prod.fst).Nodup) : ((setField r k v).map Prod.fst).Nodup := by
  induction r with
  | nil => simp [setField]
  | cons kv rest ih =>
    obtain ⟨k', w⟩ := kv
    simp only [List.map_cons, List.nodup_cons] at h
    by_cases he : k' = k
    · rw [show setField ((k', w) :: rest) k v = (k', v) :: rest from by
        simp [setField, he]]
      rw [List.map_cons, List.nodup_cons]
      refine ⟨?_, h.2⟩
      rw [he]
      rw [he] at h
      exact h.1
    · simp only [setField, he, if_neg, ite_false, List.map_cons, List.nodup_cons]
      refine ⟨?_, ih h.2⟩
      rw [mem_map_fst_setField]
      rintro (hm | hm)
      · exact h.1 hm
      · exact he hm

theorem wfO_setField {r : JRec} {k : String} {v : JVal}
    (hr : wfO r = true) (hv : wfV v = true) : wfO (setField r k v) = true := by
  induction r with
  | nil => simp [setField, wfO, hv]
  | cons kv rest ih =>
    obtain ⟨k', w⟩ := kv
    simp only [wfO, Bool.and_eq_true] at hr
    by_cases he : k' = k
    · subst he; simp [setField, wfO, hv, hr.2]
    · simp [setField, he, wfO, hr.1, ih hr.2]

theorem nodup_mergeInto {p : JRec} :
    ∀ {r : JRec}, (r.map Prod.fst).Nodup → ((mergeInto r p).map Prod.fst).Nodup := by
  induction p with
  | nil => intro r h; simpa [mergeInto] using h
  | cons kv p' ih =>
    intro r h
    rw [show mergeInto r (kv :: p') = mergeInto (setField r kv.1 kv.2) p' from by
      simp [mergeInto]]
    exact ih (nodup_setField h)

theorem wfO_mergeInto {p : JRec} (hp : wfO p = true) :
    ∀ {r : JRec}, wfO r = true → wfO (mergeInto r p) = true := by
  induction p with
  | nil => intro r h; simpa [mergeInto] using h
  | cons kv p' ih =>
    intro r h
    simp only [wfO, Bool.and_eq_true] at hp
    rw [show mergeInto r (kv :: p') = mergeInto (setField r kv.1 kv.2) p' from by
      simp [mergeInto]]
    exact ih hp.2 (wfO_setField h hp.1)

theorem nodupKeys_iff {ps : JRec} : nodupKeys ps = true ↔ (ps.map Prod.fst).Nodup := by
  simp [nodupKeys]

theorem wfV_updateItem {q p : JRec}
    (hw : wfO p = true) {x : JVal} (hx : wfV x = true) :
    wfV (updateItem q p x) = true := by
  unfold updateItem
  by_cases hm : matchesQuery x q
  · cases x with
    | obj fields =>
      simp only [wfV, Bool.and_eq_true, nodupKeys_iff] at hx
      simp only [hm, if_pos, ite_true, wfV, Bool.and_eq_true, nodupKeys_iff]
      exact ⟨nodup_mergeInto hx.1, wfO_mergeInto hw hx.2⟩
    | null => simpa [hm] using hx
    | bool b => simpa [hm] using hx
    | num n => simpa [hm] using hx
    | str s => simpa [hm] using hx
    | arr xs => simpa [hm] using hx
  · simpa [hm] using hx

theorem wfA_map_updateItem {q p : JRec}
    (hw : wfO p = true) {items : List JVal} (h : wfA items = true) :
    wfA (items.map (updateItem q p)) = true := by
  induction items with
  | nil => simp [wfA]
  | cons x rest ih =>
    simp only [wfA, Bool.and_eq_true] at h
    simp only [List.map_cons, wfA, Bool.and_eq_true]
    exact ⟨wfV_updateItem hw h.1, ih h.2⟩

theorem wfA_filter (items : List JVal) (pred : JVal → Bool) (h : wfA items = true) :
    wfA (items.filter pred) = true := by
  induction items with
  | nil => simp [wfA]
  | cons x rest ih =>
    simp only [wfA, Bool.and_eq_true] at h
    by_cases hp : pred x
    · simp [List.filter_cons, hp, wfA, h.1, ih h.2]
    · simp [List.filter_cons, hp, ih h.2]

/-- Successful read: a bound handle whose file holds parseable content. -/
theorem get_spec {h : Handle} {fs : Fs} {path content : String} {v : JVal} (w : Bool)
    (hp : h.storagePath = some path) (hr : fsRead fs path = some content)
    (hj : parseJson content = some v) :
    get h fs "" w =
      { result := .ok v, handle := { h with storageData := some v }, fs := fs } := by
  simp [get, hp, hr, hj]

/-- Failed parse: a bound handle whose file holds invalid content. -/
theorem get_parse_fail {h : Handle} {fs : Fs} {path content : String} (w : Bool)
    (hp : h.storagePath = some path) (hr : fsRead fs path = some content)
    (hj : parseJson content = none) :
    get h fs "" w = { result := .error .parseError, handle := h, fs := fs } := by
  simp [get, hp, hr, hj]

/-- Failed read: a bound handle whose file is missing. -/
theorem get_read_fail {h : Handle} {fs : Fs} {path : String} (w : Bool)
    (hp : h.storagePath = some path) (hr : fsRead fs path = none) :
    get h fs "" w = { result := .error .ioError, handle := h, fs := fs } := by
  simp [get, hp, hr]

/-- Strict equality against a scalar expectation is value equality. -/
theorem strictEq_iff_of_scalar {w : JVal} (hs : isScalar w = true) (v : JVal) :
    strictEq v w = true ↔ v = w := by
  cases w <;> cases v <;> simp_all [strictEq, isScalar]

/-- The matcher, characterized: with scalar expectations it demands the
record hold exactly the expected value at every query key. -/
theorem matchesQuery_iff (item : JVal) (q : JRec)
    (hq : q.all (fun kv => isScalar kv.2) = true) :
    matchesQuery item q = true ↔ ∀ kv ∈ q, getProp item kv.1 = some kv.2 := by
  unfold matchesQuery
  rw [List.all_eq_true]
  constructor
  · intro hall kv hmem
    have := hall kv hmem
    have hsc : isScalar kv.2 = true := by
      have := List.all_eq_true.mp hq kv hmem
      simpa using this
    cases hgp : getProp item kv.1 with
    | none => rw [hgp] at this; simp at this
    | some v =>
      rw [hgp] at this
      simp only at this
      exact congrArg some ((strictEq_iff_of_scalar hsc v).mp this)
  · intro hall kv hmem
    have hsc : isScalar kv.2 = true := by
      have := List.all_eq_true.mp hq kv hmem
      simpa using this
    rw [hall kv hmem]
    simp only
    exact (strictEq_iff_of_scalar hsc kv.2).mpr rfl

/-! ## Operation-level characterizations -/

/-- get with no storage argument, fully characterized by the handle path,
the file contents and their parse; never touches the filesystem and is
independent of the write disposition. -/
theorem get_empty_eq (h : Handle) (fs : Fs) (w : Bool) :
    get h fs "" w =
      match h.storagePath with
      | none => { result := .error .ioError, handle := h, fs := fs }
      | some path =>
        match fsRead fs path with
        | none => { result := .error .ioError, handle := h, fs := fs }
        | some content =>
          match parseJson content with
          | none => { result := .error .parseError, handle := h, fs := fs }
          | some v =>
            { result := .ok v, handle := { h with storageData := some v }, fs := fs } := by
  cases hsp : h.storagePath with
  | none => simp [get, hsp]
  | some path =>
    cases hr : fsRead fs path with
    | none => simp [get, hsp, hr]
    | some content =>
      cases hj : parseJson content with
      | none => simp [get, hsp, hr, hj]
      | some v => simp [get, hsp, hr, hj]

/-- A successful insert, fully characterized. -/
theorem insert_spec {h : Handle} {fs : Fs} {st path content : String} {items : List JVal}
    (rec : JRec) (gen : String)
    (hst : h.storage = some st) (hp : h.storagePath = some path)
    (hr : fsRead fs path = some content)
    (hj : parseJson content = some (.arr items)) :
    insert h fs rec gen true =
      { result := .ok (setField rec "id" (chooseId rec gen)),
        handle := { h with
          lastInsertId := some (chooseId rec gen),
          storageData :=
            some (.arr (items ++ [.obj (setField rec "id" (chooseId rec gen))])) },
        fs := fsWrite fs path
          (printJson (.arr (items ++ [.obj (setField rec "id" (chooseId rec gen))]))) } := by
  have hsn : ¬(h.storage = none) := by simp [hst]
  have hg := get_spec (h := { h with lastInsertId := some (chooseId rec gen) })
    true hp hr hj
  rw [hp] at hg
  simp [insert, hsn, hg, hp]

/-- A successful update, fully characterized: the merged set is returned
and written back. -/
theorem update_spec {h : Handle} {fs : Fs} {st path content : String} {items : List JVal}
    (q p : JRec)
    (hst : h.storage = some st) (hp : h.storagePath = some path)
    (hr : fsRead fs path = some content)
    (hj : parseJson content = some (.arr items)) :
    update h fs q p true =
      { result := .ok (items.map (updateItem q p)),
        handle := { h with storageData := some (.arr (items.map (updateItem q p))) },
        fs := fsWrite fs path (printJson (.arr (items.map (updateItem q p)))) } := by
  have hg := get_spec true hp hr hj
  simp [update, hg, hp]

/-- update with a failing disk write: the merged set is still returned
as a success, the error is thrown inside the callback. -/
theorem update_spec_writeFail {h : Handle} {fs : Fs} {st path content : String}
    {items : List JVal} (q p : JRec)
    (hst : h.storage = some st) (hp : h.storagePath = some path)
    (hr : fsRead fs path = some content)
    (hj : parseJson content = some (.arr items)) :
    update h fs q p false =
      { result := .ok (items.map (updateItem q p)),
        handle := { h with storageData := some (.arr (items.map (updateItem q p))) },
        fs := fs, uncaught := some .ioError } := by
  have hg := get_spec false hp hr hj
  simp [update, hg, hp]

/-- A successful delete, fully characterized: the matching records are
returned, the rest written back. -/
theorem delete_spec {h : Handle} {fs : Fs} {st path content : String} {items : List JVal}
    (q : JRec)
    (hst : h.storage = some st) (hp : h.storagePath = some path)
    (hr : fsRead fs path = some content)
    (hj : parseJson content = some (.arr items)) :
    delete h fs q true =
      { result := .ok (items.filter fun it => matchesQuery it q),
        handle := { h with storageData := some (.arr items) },
        fs := fsWrite fs path
          (printJson (.arr (items.filter fun it => !(matchesQuery it q)))) } := by
  have hg := get_spec true hp hr hj
  simp [delete, hg, hp]

/-- delete with a failing disk write: the removed records are still
returned as a success, the error is thrown inside the callback. -/
theorem delete_spec_writeFail {h : Handle} {fs : Fs} {st path content : String}
    {items : List JVal} (q : JRec)
    (hst : h.storage = some st) (hp : h.storagePath = some path)
    (hr : fsRead fs path = some content)
    (hj : parseJson content = some (.arr items)) :
    delete h fs q false =
      { result := .ok (items.filter fun it => matchesQuery it q),
        handle := { h with storageData := some (.arr items) },
        fs := fs, uncaught := some .ioError } := by
  have hg := get_spec false hp hr hj
  simp [delete, hg, hp]

/-- A successful find, fully characterized. -/
theorem find_spec {h : Handle} {fs : Fs} {path content : String} {items : List JVal}
    (q : JRec)
    (hp : h.storagePath = some path) (hr : fsRead fs path = some content)
    (hj : parseJson content = some (.arr items)) :
    find h fs q true =
      { result := .ok (items.filter fun it => matchesQuery it q),
        handle := { h with storageData := some (.arr items) }, fs := fs } := by
  have hg := get_spec true hp hr hj
  simp [find, hg]

/-- Splitting insert at its await boundary is faithful: running the read
phase and then immediately the write phase over the unchanged filesystem
is exactly insert. -/
theorem insert_phases_eq (h : Handle) (fs : Fs) (rec : JRec) (gen : String) (w : Bool) :
    insertWritePhase (insertReadPhase h fs rec gen) fs w = insert h fs rec gen w := by
  by_cases hs : h.storage = none
  · simp [insert, insertReadPhase, insertWritePhase, hs]
  · have hgw : get { h with lastInsertId := some (chooseId rec gen) } fs "" w =
        get { h with lastInsertId := some (chooseId rec gen) } fs "" true := rfl
    simp only [insert, insertReadPhase, insertWritePhase, hs, ite_false, if_neg,
      not_false_eq_true, hgw]
    rw [get_empty_eq]
    cases hsp : (h.storagePath : Option String) with
    | none => simp [hsp]
    | some path =>
      cases hr : fsRead fs path with
      | none => simp [hsp, hr]
      | some content =>
        cases hj : parseJson content with
        | none => simp [hsp, hr, hj]
        | some v =>
          cases v with
          | arr items => simp [hsp, hr, hj]
          | null => simp [hsp, hr, hj]
          | bool b => simp [hsp, hr, hj]
          | num n => simp [hsp, hr, hj]
          | str s => simp [hsp, hr, hj]
          | obj fs2 => simp [hsp, hr, hj]

/-! ## The claims -/

/-- C1, counterexample to the claim as stated: insert is given an explicit
id field holding the empty string; the claim says the supplied value is
used verbatim, but the JavaScript or-operator discards the falsy supplied
id and the stored record carries the generated id instead. -/
theorem c1_counterexample :
    (insert
        { dbPath := "db", storage := some "users",
          storagePath := some "db/users.json" }
        [("db/users.json", "[]")]
        [("id", .str ""), ("name", .str "a")] "gen123" true).result =
      .ok [("id", .str "gen123"), ("name", .str "a")] ∧
    JVal.str "gen123" ≠ JVal.str "" := by
  constructor
  · rfl
  · simp

/-- C1 as amended: on a bound handle over a readable array, insert stores
and returns the record with id chosen as follows — a missing or falsy
(empty string, 0, false, null) supplied id is replaced by the generated
string, which is then non-empty whenever the generator output is
non-empty; a truthy supplied id is used verbatim.  The stored set is the
old set (arbitrary, so no uniqueness check is involved) plus the new
record. -/
theorem c1_insert_id_assignment
    {h : Handle} {fs : Fs} {st path content : String} {items : List JVal}
    (rec : JRec) (gen : String)
    (hst : h.storage = some st) (hp : h.storagePath = some path)
    (hr : fsRead fs path = some content)
    (hj : parseJson content = some (.arr items)) (hgen : gen ≠ "") :
    ((getField rec "id" = none ∨
        (∃ v, getField rec "id" = some v ∧ truthy v = false)) →
      (insert h fs rec gen true).result = .ok (setField rec "id" (.str gen)) ∧
      getField (setField rec "id" (.str gen)) "id" = some (.str gen) ∧
      JVal.str gen ≠ JVal.str "" ∧
      fsRead (insert h fs rec gen true).fs path =
        some (printJson (.arr (items ++ [.obj (setField rec "id" (.str gen))])))) ∧
    (∀ v, getField rec "id" = some v → truthy v = true →
      (insert h fs rec gen true).result = .ok (setField rec "id" v) ∧
      getField (setField rec "id" v) "id" = some v ∧
      fsRead (insert h fs rec gen true).fs path =
        some (printJson (.arr (items ++ [.obj (setField rec "id" v)])))) := by
  have hins := insert_spec rec gen hst hp hr hj
  constructor
  · intro hfalsy
    have hid : chooseId rec gen = .str gen := by
      unfold chooseId
      rcases hfalsy with hnone | ⟨v, hv, htr⟩
      · rw [hnone]
      · rw [hv]; simp [htr]
    rw [← hid]
    simp [hins, getField_setField_same, fsRead_fsWrite_same, hgen, hid]
  · intro v hv htr
    have hid : chooseId rec gen = v := by
      unfold chooseId; rw [hv]; simp [htr]
    rw [← hid]
    simp [hins, getField_setField_same, fsRead_fsWrite_same]

/-- C1 witness: inserting a record without an id on a fresh collection
stores the generated id. -/
theorem c1_witness :
    (insert
        { dbPath := "db", storage := some "users",
          storagePath := some "db/users.json" }
        [("db/users.json", "[]")] [("name", .str "a")] "gen123" true).result =
      .ok [("name", .str "a"), ("id", .str "gen123")] := by
  have := (@c1_insert_id_assignment
    { dbPath := "db", storage := some "users", storagePath := some "db/users.json" }
    [("db/users.json", "[]")] "users" "db/users.json" "[]" []
    [("name", .str "a")] "gen123" rfl rfl rfl (by rfl) (by decide)).1
    (Or.inl rfl)
  exact this.1

/-- C5 (claim right, code wrong): the specification demands a
per-collection lock so N concurrent inserts with distinct ids leave N
records.  The source insert suspends at await this.get() between its file
read and its file write, with no lock; interleaving two inserts as
read-read-write-write from the empty collection makes both report
success while the file ends with only the second record — the first
insert is lost, 1 record instead of 2. -/
theorem c5_lost_update_run :
    let h0 : Handle :=
      { dbPath := "db", storage := some "users",
        storagePath := some "db/users.json" }
    let fs0 : Fs := [("db/users.json", "[]")]
    let p1 := insertReadPhase h0 fs0 [("id", .str "a")] "g1"
    let p2 := insertReadPhase h0 fs0 [("id", .str "b")] "g2"
    let o1 := insertWritePhase p1 fs0 true
    let o2 := insertWritePhase p2 o1.fs true
    o1.result = .ok [("id", .str "a")] ∧
    o2.result = .ok [("id", .str "b")] ∧
    o2.fs = [("db/users.json", "[\x7b\"id\":\"b\"\x7d]")] ∧
    parseJson "[\x7b\"id\":\"b\"\x7d]" = some (.arr [.obj [("id", .str "b")]]) :=
  ⟨rfl, rfl, rfl, rfl⟩

/-- C6, counterexample to the claim as stated: with a bound handle whose
file holds invalid JSON, insert fails at the load; the append is indeed
not visible, but lastInsertId has already been overwritten with the
attempted id before the load ran, so it is not unchanged. -/
theorem c6_counterexample :
    let o := insert
      { dbPath := "db", storage := some "users",
        storagePath := some "db/users.json",
        lastInsertId := some (.str "old") }
      [("db/users.json", "not json")] [("id", .str "x")] "g" true
    o.result = .error .parseError ∧
    o.fs = [("db/users.json", "not json")] ∧
    o.handle.lastInsertId = some (.str "x") ∧
    some (JVal.str "x") ≠ some (JVal.str "old") := by
  refine ⟨rfl, rfl, rfl, by simp⟩

/-- C6 as amended: whenever insert on a bound handle fails, the stored
record set is untouched (the append is not visible), but lastInsertId has
been set to the attempted id — it is changed, not unchanged. -/
theorem c6_insert_failure_state
    {h : Handle} {fs : Fs} {st : String} (rec : JRec) (gen : String) (w : Bool)
    (e : JsErr) (hst : h.storage = some st)
    (hres : (insert h fs rec gen w).result = .error e) :
    (insert h fs rec gen w).fs = fs ∧
    (insert h fs rec gen w).handle.lastInsertId = some (chooseId rec gen) := by
  have hsn : ¬(h.storage = none) := by simp [hst]
  simp only [insert, hsn, ite_false, if_neg, not_false_eq_true] at hres ⊢
  rw [get_empty_eq] at hres ⊢
  cases hsp : h.storagePath with
  | none => simp [hsp]
  | some path =>
    cases hfr : fsRead fs path with
    | none => simp [hsp, hfr]
    | some content =>
      cases hpj : parseJson content with
      | none => simp [hsp, hfr, hpj]
      | some v =>
        cases v with
        | arr items =>
          cases w with
          | true => simp [hsp, hfr, hpj] at hres
          | false => simp [hsp, hfr, hpj]
        | null => simp [hsp, hfr, hpj]
        | bool b => simp [hsp, hfr, hpj]
        | num n => simp [hsp, hfr, hpj]
        | str s => simp [hsp, hfr, hpj]
        | obj l => simp [hsp, hfr, hpj]

/-- C6 witness: the amended statement at the concrete failing input. -/
theorem c6_witness :
    (insert
        { dbPath := "db", storage := some "users",
          storagePath := some "db/users.json",
          lastInsertId := some (.str "old") }
        [("db/users.json", "not json")] [("id", .str "x")] "g" true).fs =
      [("db/users.json", "not json")] ∧
    (insert
        { dbPath := "db", storage := some "users",
          storagePath := some "db/users.json",
          lastInsertId := some (.str "old") }
        [("db/users.json", "not json")] [("id", .str "x")] "g" true).handle.lastInsertId =
      some (JVal.str "x") := by
  have := @c6_insert_failure_state
    { dbPath := "db", storage := some "users",
      storagePath := some "db/users.json", lastInsertId := some (.str "old") }
    [("db/users.json", "not json")] "users"
    [("id", .str "x")] "g" true .parseError rfl (by rfl)
  exact ⟨this.1, this.2.trans rfl⟩

/-- C2: update on a bound handle over a stored record set merges the
patch into exactly the matching records — patch keys overwrite, missing
patch keys are untouched, new patch keys are added — leaves non-matching
records untouched, stores the full resulting set back, returns the full
post-update set in original order, and a subsequent find observes the
patched records. -/
theorem c2_update_merges
    {h : Handle} {fs : Fs} {st path content : String} {rs : List JRec}
    (q patch : JRec)
    (hst : h.storage = some st) (hp : h.storagePath = some path)
    (hr : fsRead fs path = some content)
    (hj : parseJson content = some (.arr (rs.map .obj)))
    (hwf : wfV (.arr (rs.map .obj)) = true)
    (hnd : (patch.map Prod.fst).Nodup) (hpw : wfO patch = true) :
    (update h fs q patch true).result =
      .ok (rs.map fun r =>
        if matchesQuery (.obj r) q then .obj (mergeInto r patch) else .obj r) ∧
    (∀ r k, getField (mergeInto r patch) k =
      match getField patch k with
      | some v => some v
      | none => getField r k) ∧
    fsRead (update h fs q patch true).fs path =
      some (printJson (.arr ((rs.map .obj).map (updateItem q patch)))) ∧
    (∀ q2 : JRec,
      (find (update h fs q patch true).handle (update h fs q patch true).fs q2
          true).result =
        .ok (((rs.map .obj).map (updateItem q patch)).filter
          fun it => matchesQuery it q2)) := by
  have hup := update_spec q patch hst hp hr hj
  have hmap : (rs.map JVal.obj).map (updateItem q patch) =
      rs.map fun r =>
        if matchesQuery (.obj r) q then .obj (mergeInto r patch) else .obj r := by
    rw [List.map_map]
    apply List.map_congr_left
    intro r _
    by_cases hm : matchesQuery (.obj r) q <;> simp [updateItem, hm]
  refine ⟨?_, ?_, ?_, ?_⟩
  · rw [hup]
    simp [hmap]
  · intro r k
    exact mergeInto_getField patch r k hnd
  · simp [hup, fsRead_fsWrite_same]
  · intro q2
    have hwf2 : wfV (.arr ((rs.map JVal.obj).map (updateItem q patch))) = true := by
      have : wfA (rs.map JVal.obj) = true := by simpa [wfV] using hwf
      simpa [wfV] using wfA_map_updateItem hpw this
    have hp2 : (update h fs q patch true).handle.storagePath = some path := by
      simp [hup, hp]
    have hr2 : fsRead (update h fs q patch true).fs path =
        some (printJson (.arr ((rs.map JVal.obj).map (updateItem q patch)))) := by
      simp [hup, fsRead_fsWrite_same]
    have hf := find_spec q2 hp2 hr2 (parseJson_printJson hwf2)
    simp [hf]

/-- C2 witness: the specification example — update({name:"John"},{age:29})
on [{id:1,name:"John",age:28}] returns and stores the patched record. -/
theorem c2_witness :
    (update
        { dbPath := "db", storage := some "users",
          storagePath := some "db/users.json" }
        [("db/users.json", "[\x7b\"id\":1,\"name\":\"John\",\"age\":28\x7d]")]
        [("name", .str "John")] [("age", .num 29)] true).result =
      .ok [.obj [("id", .num 1), ("name", .str "John"), ("age", .num 29)]] := by
  have := (@c2_update_merges
    { dbPath := "db", storage := some "users", storagePath := some "db/users.json" }
    [("db/users.json", "[\x7b\"id\":1,\"name\":\"John\",\"age\":28\x7d]")]
    "users" "db/users.json" "[\x7b\"id\":1,\"name\":\"John\",\"age\":28\x7d]"
    [[("id", .num 1), ("name", .str "John"), ("age", .num 28)]]
    [("name", .str "John")] [("age", .num 29)]
    rfl rfl rfl (by rfl) (by rfl) (by decide) (by rfl)).1
  exact this.trans rfl

/-- C3: delete on a bound handle partitions the stored records into kept
(not matching) and removed (matching), stores exactly the kept set,
returns exactly the removed records, and a subsequent read of the full
set yields the kept records, which contain no removed record. -/
theorem c3_delete_partitions
    {h : Handle} {fs : Fs} {st path content : String} {items : List JVal}
    (q : JRec)
    (hst : h.storage = some st) (hp : h.storagePath = some path)
    (hr : fsRead fs path = some content)
    (hj : parseJson content = some (.arr items))
    (hwf : wfV (.arr items) = true) :
    (delete h fs q true).result =
      .ok (items.filter fun it => matchesQuery it q) ∧
    fsRead (delete h fs q true).fs path =
      some (printJson (.arr (items.filter fun it => !(matchesQuery it q)))) ∧
    (get (delete h fs q true).handle (delete h fs q true).fs "" true).result =
      .ok (.arr (items.filter fun it => !(matchesQuery it q))) ∧
    (∀ x ∈ items.filter (fun it => matchesQuery it q),
      x ∉ items.filter fun it => !(matchesQuery it q)) ∧
    List.Perm
      ((items.filter fun it => matchesQuery it q) ++
        (items.filter fun it => !(matchesQuery it q))) items := by
  have hdel := delete_spec q hst hp hr hj
  have hwfk : wfV (.arr (items.filter fun it => !(matchesQuery it q))) = true := by
    have : wfA items = true := by simpa [wfV] using hwf
    simpa [wfV] using wfA_filter items _ this
  refine ⟨?_, ?_, ?_, ?_, ?_⟩
  · simp [hdel]
  · simp [hdel, fsRead_fsWrite_same]
  · have hp2 : (delete h fs q true).handle.storagePath = some path := by
      simp [hdel, hp]
    have hr2 : fsRead (delete h fs q true).fs path =
        some (printJson (.arr (items.filter fun it => !(matchesQuery it q)))) := by
      simp [hdel, fsRead_fsWrite_same]
    have hg := get_spec true hp2 hr2 (parseJson_printJson hwfk)
    simp [hg]
  · intro x hx hx2
    rw [List.mem_filter] at hx hx2
    rw [hx.2] at hx2
    simp at hx2
  · exact List.filter_append_perm _ items

/-- C3 witness: the specification example shape — delete({age:29})
removes the matching record and returns it. -/
theorem c3_witness :
    (delete
        { dbPath := "db", storage := some "users",
          storagePath := some "db/users.json" }
        [("db/users.json", "[\x7b\"id\":1,\"age\":29\x7d,\x7b\"id\":2,\"age\":30\x7d]")]
        [("age", .num 29)] true).result =
      .ok [.obj [("id", .num 1), ("age", .num 29)]] := by
  have := (@c3_delete_partitions
    { dbPath := "db", storage := some "users", storagePath := some "db/users.json" }
    [("db/users.json", "[\x7b\"id\":1,\"age\":29\x7d,\x7b\"id\":2,\"age\":30\x7d]")]
    "users" "db/users.json" "[\x7b\"id\":1,\"age\":29\x7d,\x7b\"id\":2,\"age\":30\x7d]"
    [.obj [("id", .num 1), ("age", .num 29)], .obj [("id", .num 2), ("age", .num 30)]]
    [("age", .num 29)] rfl rfl rfl (by rfl) (by rfl)).1
  exact this.trans rfl

/-- C4: for scalar-valued queries (the query type of the specification),
the matcher returns true iff the record has every query key with exactly
the expected value — deep value equality, which on scalars is what the
strict equality in the source computes; the empty query matches every
record; find returns exactly the matching records in original order. -/
theorem c4_matcher_deep_equality
    {h : Handle} {fs : Fs} {path content : String} {items : List JVal}
    (item : JVal) (q : JRec)
    (hq : q.all (fun kv => isScalar kv.2) = true)
    (hp : h.storagePath = some path) (hr : fsRead fs path = some content)
    (hj : parseJson content = some (.arr items)) :
    (matchesQuery item q = true ↔ ∀ kv ∈ q, getProp item kv.1 = some kv.2) ∧
    matchesQuery item [] = true ∧
    (find h fs q true).result = .ok (items.filter fun it => matchesQuery it q) := by
  refine ⟨matchesQuery_iff item q hq, by simp [matchesQuery], ?_⟩
  simp [find_spec q hp hr hj]

/-- C4 witness: the specification example — find({age:28}) on
[{id:1,age:28},{id:2,age:30}] returns exactly the first record. -/
theorem c4_witness :
    (find
        { dbPath := "db", storage := some "users",
          storagePath := some "db/users.json" }
        [("db/users.json", "[\x7b\"id\":1,\"age\":28\x7d,\x7b\"id\":2,\"age\":30\x7d]")]
        [("age", .num 28)] true).result =
      .ok [.obj [("id", .num 1), ("age", .num 28)]] := by
  have := (@c4_matcher_deep_equality
    { dbPath := "db", storage := some "users", storagePath := some "db/users.json" }
    [("db/users.json", "[\x7b\"id\":1,\"age\":28\x7d,\x7b\"id\":2,\"age\":30\x7d]")]
    "db/users.json" "[\x7b\"id\":1,\"age\":28\x7d,\x7b\"id\":2,\"age\":30\x7d]"
    [.obj [("id", .num 1), ("age", .num 28)], .obj [("id", .num 2), ("age", .num 30)]]
    (.obj [("id", .num 1), ("age", .num 28)]) [("age", .num 28)]
    (by decide) rfl rfl (by rfl)).2.2
  exact this.trans rfl

/-- C7 (claim right, code wrong): the specification requires every
storage-write failure during update or delete to surface to the caller,
with the write confirmed before the operation returns.  The source issues
a fire-and-forget fs.writeFile: when the write fails, both operations
still return their result as a success, the file is not updated, and the
error is thrown inside the callback where the caller never sees it. -/
theorem c7_write_failure_not_surfaced
    {h : Handle} {fs : Fs} {st path content : String} {items : List JVal}
    (q p : JRec)
    (hst : h.storage = some st) (hp : h.storagePath = some path)
    (hr : fsRead fs path = some content)
    (hj : parseJson content = some (.arr items)) :
    (update h fs q p false).result = .ok (items.map (updateItem q p)) ∧
    (update h fs q p false).uncaught = some .ioError ∧
    (update h fs q p false).fs = fs ∧
    (delete h fs q false).result =
      .ok (items.filter fun it => matchesQuery it q) ∧
    (delete h fs q false).uncaught = some .ioError ∧
    (delete h fs q false).fs = fs := by
  have hu := update_spec_writeFail q p hst hp hr hj
  have hd := delete_spec_writeFail q hst hp hr hj
  simp [hu, hd]

/-- C7 witness: the failing-write run at a concrete state — update and
delete both report success while the disk write failed. -/
theorem c7_witness :
    (update
        { dbPath := "db", storage := some "users",
          storagePath := some "db/users.json" }
        [("db/users.json", "[\x7b\"id\":1\x7d]")] [] [("age", .num 29)] false).uncaught =
      some .ioError ∧
    (delete
        { dbPath := "db", storage := some "users",
          storagePath := some "db/users.json" }
        [("db/users.json", "[\x7b\"id\":1\x7d]")] [] false).result =
      .ok [.obj [("id", .num 1)]] := by
  have := @c7_write_failure_not_surfaced
    { dbPath := "db", storage := some "users", storagePath := some "db/users.json" }
    [("db/users.json", "[\x7b\"id\":1\x7d]")] "users" "db/users.json" "[\x7b\"id\":1\x7d]"
    [.obj [("id", .num 1)]] [] [("age", .num 29)]
    rfl rfl rfl (by rfl)
  exact ⟨this.2.1, this.2.2.2.1.trans rfl⟩

/-- C8, counterexample to the claim as stated: the buffer "5" is valid
JSON whose top-level value is not an array; the claim says decoding fails
with CorruptStorage, but get parses it and returns the number with no
array check. -/
theorem c8_counterexample :
    (get
        { dbPath := "db", storage := some "users",
          storagePath := some "db/users.json" }
        [("db/users.json", "5")] "" true).result = .ok (.num 5) ∧
    ∀ xs, JVal.num 5 ≠ JVal.arr xs := by
  exact ⟨rfl, fun xs h => JVal.noConfusion h⟩

/-- C8 as amended: decoding the collection file, as every operation does
through get, fails exactly when the buffer is not valid JSON; on any
valid JSON buffer it succeeds and returns the parsed value even when the
top-level value is not an array (no array check is performed), and on a
well-formed array-of-objects buffer it yields the record sequence. -/
theorem c8_decode_behavior
    {h : Handle} {fs : Fs} {path content : String}
    (hp : h.storagePath = some path) (hr : fsRead fs path = some content) :
    (parseJson content = none →
      (get h fs "" true).result = .error .parseError) ∧
    (∀ v, parseJson content = some v → (get h fs "" true).result = .ok v) ∧
    (∀ rs : List JRec, wfV (.arr (rs.map .obj)) = true → content = encode rs →
      (get h fs "" true).result = .ok (.arr (rs.map .obj))) := by
  refine ⟨?_, ?_, ?_⟩
  · intro hj
    simp [get_parse_fail true hp hr hj]
  · intro v hj
    simp [get_spec true hp hr hj]
  · intro rs hw hc
    subst hc
    simp [get_spec true hp hr (decode_encode rs hw)]

/-- C8 witness: the amended statement at the non-array buffer "5". -/
theorem c8_witness :
    (get
        { dbPath := "db", storage := some "users",
          storagePath := some "db/users.json" }
        [("db/users.json", "5")] "" true).result = .ok (.num 5) := by
  have := (@c8_decode_behavior
    { dbPath := "db", storage := some "users", storagePath := some "db/users.json" }
    [("db/users.json", "5")] "db/users.json" "5" rfl rfl).2.1
  exact this (.num 5) (by rfl)

/-- C9: the codec roundtrip — encoding any record sequence with
JSON.stringify and decoding the result with JSON.parse yields the same
records, record order and field order preserved (stated for canonical
records: no duplicate field keys, as with every JavaScript object). -/
theorem c9_decode_encode_roundtrip (rs : List JRec)
    (h : wfV (.arr (rs.map .obj)) = true) :
    decode (encode rs) = some (.arr (rs.map .obj)) :=
  decode_encode rs h

/-- C9 witness: the roundtrip at a concrete two-record sequence. -/
theorem c9_witness :
    decode (encode
        [[("id", .str "x"), ("name", .str "a b"), ("n", .num (-12))],
         [("id", .num 2), ("flag", .bool true), ("v", .null)]]) =
      some (.arr
        [.obj [("id", .str "x"), ("name", .str "a b"), ("n", .num (-12))],
         .obj [("id", .num 2), ("flag", .bool true), ("v", .null)]]) :=
  c9_decode_encode_roundtrip
    [[("id", .str "x"), ("name", .str "a b"), ("n", .num (-12))],
     [("id", .num 2), ("flag", .bool true), ("v", .null)]] (by rfl)

/-- C10: calling get with a non-empty storage name s rebinds the handle:
storage and storagePath are overwritten to target s, the file
dbPath/s.json is materialized with [] when absent (and left as is when
present), and a subsequent no-argument operation on the returned handle
reads from s — a read operation that mutates handle state. -/
theorem c10_get_rebinds (h : Handle) (fs : Fs) (s : String) (hs : s ≠ "") :
    (get h fs s true).handle.storage = some s ∧
    (get h fs s true).handle.storagePath =
      some (h.dbPath ++ "/" ++ s ++ ".json") ∧
    (fsRead fs (h.dbPath ++ "/" ++ s ++ ".json") = none →
      fsRead (get h fs s true).fs (h.dbPath ++ "/" ++ s ++ ".json") =
        some "[]") ∧
    (∀ c, fsRead fs (h.dbPath ++ "/" ++ s ++ ".json") = some c →
      (get h fs s true).fs = fs) ∧
    (fsRead fs (h.dbPath ++ "/" ++ s ++ ".json") = none →
      (get (get h fs s true).handle (get h fs s true).fs "" true).result =
        .ok (.arr [])) := by
  have hpe : parseJson "[]" = some (.arr []) := rfl
  cases hre : fsRead fs (h.dbPath ++ "/" ++ s ++ ".json") with
  | none =>
    have hfw := fsRead_fsWrite_same fs (h.dbPath ++ "/" ++ s ++ ".json") "[]"
    refine ⟨?_, ?_, ?_, ?_, ?_⟩
    · simp [get, setStorage, hs, hre, hfw, hpe]
    · simp [get, setStorage, hs, hre, hfw, hpe]
    · intro _
      simp [get, setStorage, hs, hre, hfw, hpe]
    · intro c hc
      cases hc
    · intro _
      have h1 : (get h fs s true).handle.storagePath =
          some (h.dbPath ++ "/" ++ s ++ ".json") := by
        simp [get, setStorage, hs, hre, hfw, hpe]
      have h2 : fsRead (get h fs s true).fs (h.dbPath ++ "/" ++ s ++ ".json") =
          some "[]" := by
        simp [get, setStorage, hs, hre, hfw, hpe]
      simp [get_spec true h1 h2 hpe]
  | some c =>
    cases hpj : parseJson c with
    | none =>
      refine ⟨?_, ?_, ?_, ?_, ?_⟩
      · simp [get, setStorage, hs, hre, hpj]
      · simp [get, setStorage, hs, hre, hpj]
      · intro hn; cases hn
      · intro c2 _; simp [get, setStorage, hs, hre, hpj]
      · intro hn; cases hn
    | some v =>
      refine ⟨?_, ?_, ?_, ?_, ?_⟩
      · simp [get, setStorage, hs, hre, hpj]
      · simp [get, setStorage, hs, hre, hpj]
      · intro hn; cases hn
      · intro c2 _; simp [get, setStorage, hs, hre, hpj]
      · intro hn; cases hn

/-- C10 witness: binding a fresh handle to storage "posts" materializes
db/posts.json with [] and rebinds the handle fields. -/
theorem c10_witness :
    (get { dbPath := "db" } [] "posts" true).handle.storage = some "posts" ∧
    (get { dbPath := "db" } [] "posts" true).handle.storagePath =
      some "db/posts.json" ∧
    fsRead (get { dbPath := "db" } [] "posts" true).fs "db/posts.json" =
      some "[]" := by
  have := c10_get_rebinds { dbPath := "db" } [] "posts" (by decide)
  exact ⟨this.1, this.2.1, this.2.2.1 rfl⟩

end JsonFileDB
